import Mathlib

/-!
Shallow embedding of the dice-notation parser and roll resolver from
src/app/api/mcp/route.ts (a TypeScript MCP dice-rolling endpoint), together
with theorems checking the written specification against this embedding.

Modelling conventions:
- JavaScript numbers on the digit strings that occur here are exact small
  integers, so digit parsing is modelled with Nat (and Int for signed
  modifiers and totals).
- Math.random() outcomes are abstracted as a stream of exact non-negative
  rationals, one per call in call order, each given as a numerator and
  denominator pair (p, q) standing for p / q in [0, 1); rollOnce mirrors
  1 + Math.floor(r * sides), and for r = p / q with q positive,
  Math.floor((p / q) * sides) is exactly p * sides / q in floor division.
- Array.prototype.sort with a comparator is stable (ECMAScript 2019), and a
  stable comparator sort has a unique result, so it is embedded as a
  structural stable insertion sort (stableSortBy below); its sortedness,
  permutation and stability properties are proved as theorems.
- Array.prototype.slice with a negative start is mirrored by jsSliceNeg,
  including the corner case slice(-0) = slice(0) = the whole array.
- String handling (trim, toLowerCase, split) is mirrored on List Char for
  the ASCII inputs the grammar recognises.
-/

/-- Mirrors the TS type DieRoll = { value: number }. -/
structure DieRoll where
  value : Nat
deriving DecidableEq, Repr

/-- The kind field of the TS keep selector: kh or kl. -/
inductive KeepKind
  | kh
  | kl
deriving DecidableEq, Repr

/-- The kind field of the TS drop selector: dh or dl. -/
inductive DropKind
  | dh
  | dl
deriving DecidableEq, Repr

/-- Mirrors the TS type DiceTerm with optional keep and drop selectors. -/
structure DiceTerm where
  count : Nat
  sides : Nat
  keep : Option (KeepKind × Nat) := none
  drop : Option (DropKind × Nat) := none
deriving DecidableEq, Repr

/-- One element of ParsedExpression.terms: a dice term or a flat modifier. -/
inductive Term
  | dice (t : DiceTerm)
  | modifier (m : Int)
deriving DecidableEq, Repr

/-- Mirrors the TS type ParsedExpression (absent optional booleans are false). -/
structure ParsedExpression where
  terms : List Term
  advantage : Bool := false
  disadvantage : Bool := false
deriving DecidableEq, Repr

/-- The error kinds thrown by parseNotation in the source. -/
inductive ParseError
  | invalidPart (part : List Char)
  | negativePool (part : List Char)
  | bothAdvDis
deriving DecidableEq, Repr

/-- Insert an element into a list, placing it before the first element b with
le a b; this is the insertion step of a stable sort. -/
def insertR {α : Type} (le : α → α → Bool) (a : α) : List α → List α
  | [] => [a]
  | b :: l => if le a b then a :: b :: l else b :: insertR le a l

/-- Stable insertion sort: the embedding of JavaScript Array.prototype.sort
with a consistent comparator (stable since ES2019; a stable comparator sort
is uniquely determined by sortedness plus stability). -/
def stableSortBy {α : Type} (le : α → α → Bool) : List α → List α
  | [] => []
  | a :: l => insertR le a (stableSortBy le l)

/-- JS arr.slice(-n) for n : Nat: the last n elements, except that
slice(-0) = slice(0) is the whole array. -/
def jsSliceNeg {α : Type} (l : List α) (n : Nat) : List α :=
  if n = 0 then l else l.drop (l.length - n)

/-- The lexicographic refinement of a boolean preorder le by a tie-break
relation R: a strictly le-smaller element comes first, and le-equivalent
elements are ordered by R. Pairwise lexRel is the characteristic property
of a stable sort run on an R-ordered input. -/
def lexRel {α : Type} (le : α → α → Bool) (R : α → α → Prop) (a b : α) : Prop :=
  (le a b = true ∧ ¬ le b a = true) ∨ (le a b = true ∧ le b a = true ∧ R a b)

/-- ASCII whitespace, the fragment of the JS \s class relevant to this
grammar (every token the grammar accepts is ASCII). -/
def isWS (c : Char) : Bool :=
  c == ' ' || c == '\t' || c == '\n' || c == '\r'

/-- ASCII lowercasing, the fragment of String.prototype.toLowerCase relevant
to this grammar. -/
def jsToLower (c : Char) : Char :=
  if 'A' ≤ c ∧ c ≤ 'Z' then Char.ofNat (c.toNat + 32) else c

/-- The ASCII digit class \d. -/
def isDigitCh (c : Char) : Bool :=
  '0' ≤ c ∧ c ≤ '9'

/-- Strip leading and trailing whitespace, as String.prototype.trim. -/
def trimChars (cs : List Char) : List Char :=
  ((cs.dropWhile isWS).reverse.dropWhile isWS).reverse

/-- Maximal non-whitespace runs of a character list (accumulator-based so the
definition is structurally recursive); on a trimmed non-empty string this is
exactly String.prototype.split(/\s+/). -/
def wordsAux : List Char → List Char → List (List Char)
  | [], acc => if acc.isEmpty then [] else [acc.reverse]
  | c :: cs, acc =>
    if isWS c then
      if acc.isEmpty then wordsAux cs [] else acc.reverse :: wordsAux cs []
    else wordsAux cs (c :: acc)

/-- All maximal non-whitespace runs of a character list. -/
def wordsOf (cs : List Char) : List (List Char) :=
  wordsAux cs []

/-- Mirrors notation.trim().toLowerCase().split(/\s+/): the empty string
splits to a single empty token, any other trimmed string to its maximal
non-whitespace runs. -/
def tokensOf (cs : List Char) : List (List Char) :=
  let t := (trimChars cs).map jsToLower
  if t.isEmpty then [[]] else wordsOf t

/-- One token equals adv or advantage. -/
def isAdvTok (t : List Char) : Bool :=
  t == ['a', 'd', 'v'] || t == ['a', 'd', 'v', 'a', 'n', 't', 'a', 'g', 'e']

/-- One token equals dis or disadvantage. -/
def isDisTok (t : List Char) : Bool :=
  t == ['d', 'i', 's'] || t == ['d', 'i', 's', 'a', 'd', 'v', 'a', 'n', 't', 'a', 'g', 'e']

/-- The source pops trailing adv/dis tokens in a while loop; this strips them
from the front of the reversed token list, recording which flags were seen. -/
def stripFlagsRev : List (List Char) → List (List Char) × Bool × Bool
  | [] => ([], false, false)
  | t :: rest =>
    if isAdvTok t then
      let r := stripFlagsRev rest
      (r.1, true, r.2.2)
    else if isDisTok t then
      let r := stripFlagsRev rest
      (r.1, r.2.1, true)
    else (t :: rest, false, false)

/-- Strip trailing adv/dis tokens from a token list, returning the remaining
tokens (in order) and the advantage/disadvantage flags seen. -/
def stripFlags (toks : List (List Char)) : List (List Char) × Bool × Bool :=
  let r := stripFlagsRev toks.reverse
  (r.1.reverse, r.2.1, r.2.2)

/-- Mirrors joined.replace(/^\+?/, '+'): a leading '+' is kept as is, and
otherwise (also in front of '-') a '+' is prepended. -/
def plusSigned (cs : List Char) : List Char :=
  match cs with
  | '+' :: _ => cs
  | _ => '+' :: cs

/-- True for the sign characters '+' and '-'. -/
def isSign (c : Char) : Bool :=
  c == '+' || c == '-'

/-- Split before every '+' or '-' (the lookahead split
joined.split(/(?=[+-])/g)); a zero-width match at position 0 does not open an
empty first chunk. -/
def splitSignsAux : List Char → List Char → List (List Char)
  | [], acc => [acc.reverse]
  | c :: cs, acc =>
    if isSign c && !acc.isEmpty then acc.reverse :: splitSignsAux cs [c]
    else splitSignsAux cs (c :: acc)

/-- Split a character list before each sign character. -/
def splitSigns (cs : List Char) : List (List Char) :=
  splitSignsAux cs []

/-- parseInt on a (non-empty) decimal digit string. -/
def digitsToNat (ds : List Char) : Nat :=
  ds.foldl (fun a c => 10 * a + (c.toNat - '0'.toNat)) 0

/-- The selector alternation (kh|kl|dh|dl) of the term regex. -/
inductive SelKind
  | kh
  | kl
  | dh
  | dl
deriving DecidableEq, Repr

/-- The payload of a successful term-regex match: the dice alternative with
its captured digit strings and optional selector, or the modifier
alternative. -/
inductive MatchPayload
  | dice (countDigits sidesDigits : List Char) (sel : Option (SelKind × List Char))
  | mod (modDigits : List Char)
deriving DecidableEq, Repr

/-- A successful match of the term regex: the sign and the matched
alternative. -/
structure TermMatch where
  neg : Bool
  payload : MatchPayload
deriving DecidableEq, Repr

/-- Split off a maximal leading digit run. -/
def spanDigits (cs : List Char) : List Char × List Char :=
  (cs.takeWhile isDigitCh, cs.dropWhile isDigitCh)

/-- Recognise a selector keyword at the head of the input. -/
def matchSelKind : List Char → Option (SelKind × List Char)
  | 'k' :: 'h' :: r => some (SelKind.kh, r)
  | 'k' :: 'l' :: r => some (SelKind.kl, r)
  | 'd' :: 'h' :: r => some (SelKind.dh, r)
  | 'd' :: 'l' :: r => some (SelKind.dl, r)
  | _ => none

/-- The dice alternative digits? d digits ((kh|kl|dh|dl) digits)? anchored at
the end of the input. Digit runs are maximal; since a selector starts with a
letter and the alternation follows a maximal digit run, maximal munch agrees
with the backtracking regex. -/
def matchDiceAlt (neg : Bool) (rest : List Char) : Option TermMatch :=
  let s1 := spanDigits rest
  match s1.2 with
  | 'd' :: r2 =>
    let s2 := spanDigits r2
    if s2.1.isEmpty then none
    else
      match s2.2 with
      | [] => some ⟨neg, MatchPayload.dice s1.1 s2.1 none⟩
      | r3 =>
        match matchSelKind r3 with
        | some (k, r4) =>
          let s3 := spanDigits r4
          if s3.1.isEmpty || !s3.2.isEmpty then none
          else some ⟨neg, MatchPayload.dice s1.1 s2.1 (some (k, s3.1))⟩
        | none => none
  | _ => none

/-- The modifier alternative digits anchored at the end of the input. -/
def matchModAlt (neg : Bool) (rest : List Char) : Option TermMatch :=
  let s := spanDigits rest
  if !s.1.isEmpty && s.2.isEmpty then some ⟨neg, MatchPayload.mod s.1⟩ else none

/-- The whole term regex
sign then (digits? d digits (sel digits)? or digits), trying the dice
alternative first like the source alternation (the alternatives are in fact
disjoint, since the dice one contains a letter d). -/
def matchTermRe (p : List Char) : Option TermMatch :=
  match p with
  | [] => none
  | c :: rest =>
    if isSign c then
      match matchDiceAlt (c == '-') rest with
      | some m => some m
      | none => matchModAlt (c == '-') rest
    else none

/-- The count capture is the empty string when absent (count defaults to 1),
and a captured "0" parses to 0 which the source coerces back to 1 via
count || 1. -/
def normCount (countDigits : List Char) : Nat :=
  let c := if countDigits.isEmpty then 1 else digitsToNat countDigits
  if c = 0 then 1 else c

/-- Populate keep from kh/kl and drop from dh/dl, as the selector dispatch in
the source. -/
def applySel (base : DiceTerm) (k : SelKind) (n : Nat) : DiceTerm :=
  match k with
  | SelKind.kh => { base with keep := some (KeepKind.kh, n) }
  | SelKind.kl => { base with keep := some (KeepKind.kl, n) }
  | SelKind.dh => { base with drop := some (DropKind.dh, n) }
  | SelKind.dl => { base with drop := some (DropKind.dl, n) }

/-- Turn one signed run into a term, mirroring the loop body of
parseNotation: unmatched runs and negative dice pools throw, the modifier
branch applies the sign, and a selector with written n = 0 is ignored
because of the truthiness test kd && n in the source. -/
def partToTerm (p : List Char) : Except ParseError Term :=
  match matchTermRe p with
  | none => Except.error (ParseError.invalidPart p)
  | some m =>
    match m.payload with
    | MatchPayload.mod md =>
      Except.ok (Term.modifier ((if m.neg then -1 else 1) * (digitsToNat md : Int)))
    | MatchPayload.dice cd sd sel =>
      if m.neg then Except.error (ParseError.negativePool p)
      else
        let base : DiceTerm := ⟨normCount cd, digitsToNat sd, none, none⟩
        match sel with
        | none => Except.ok (Term.dice base)
        | some (k, nd) =>
          if digitsToNat nd = 0 then Except.ok (Term.dice base)
          else Except.ok (Term.dice (applySel base k (digitsToNat nd)))

/-- Parse every signed run in order, stopping at the first error, as the
for loop with throw in the source. -/
def parseParts : List (List Char) → Except ParseError (List Term)
  | [] => Except.ok []
  | p :: rest =>
    match partToTerm p with
    | Except.error e => Except.error e
    | Except.ok t =>
      match parseParts rest with
      | Except.error e => Except.error e
      | Except.ok ts => Except.ok (t :: ts)

/-- Tokens of the input after trimming, lowercasing and flag stripping,
joined and split into signed runs; empty runs are discarded
(filter(Boolean)). -/
def partsOf (cs : List Char) : List (List Char) :=
  (splitSigns (plusSigned ((stripFlags (tokensOf cs)).1.flatten))).filter
    (fun p => !p.isEmpty)

/-- The advantage and disadvantage flags collected from trailing tokens. -/
def flagsOf (cs : List Char) : Bool × Bool :=
  ((stripFlags (tokensOf cs)).2.1, (stripFlags (tokensOf cs)).2.2)

/-- parseNotation from the source on a character list: parse all signed runs
(first error wins, thrown inside the loop), then reject conflicting flags. -/
def parseExprCh (cs : List Char) : Except ParseError ParsedExpression :=
  match parseParts (partsOf cs) with
  | Except.error e => Except.error e
  | Except.ok ts =>
    if (flagsOf cs).1 && (flagsOf cs).2 then Except.error ParseError.bothAdvDis
    else Except.ok ⟨ts, (flagsOf cs).1, (flagsOf cs).2⟩

/-- parseNotation from the source, on a String. -/
def parseExpr (s : String) : Except ParseError ParsedExpression :=
  parseExprCh s.data

/-- rollOnce from the source: 1 + Math.floor(r * sides), where r is the
Math.random() outcome for this call, given as the exact rational
r.1 / r.2 (a value in [0,1) at runtime); the floor of (r.1 / r.2) * sides
is r.1 * sides / r.2 in natural floor division. -/
def rollOnce (r : Nat × Nat) (sides : Nat) : Nat :=
  r.1 * sides / r.2 + 1

/-- The values of a rolled sequence, rolls.map(x => x.value). -/
def valsOf (rolls : List DieRoll) : List Nat :=
  rolls.map DieRoll.value

/-- rolls[i].value as read by the comparator and the subtotal reduce. -/
def valAt (vals : List Nat) (i : Nat) : Nat :=
  vals.getD i 0

/-- The comparator (a, b) => rolls[b].value - rolls[a].value as a boolean
preorder: a may come before b when the comparator is at most 0, i.e. when
rolls[b].value <= rolls[a].value. -/
def cmpDesc (vals : List Nat) (a b : Nat) : Bool :=
  decide (valAt vals b ≤ valAt vals a)

/-- The ranking [...indices].sort((a, b) => rolls[b].value - rolls[a].value):
indices sorted by value descending, ties kept in draw order by stability. -/
def rankDesc (vals : List Nat) : List Nat :=
  stableSortBy (cmpDesc vals) (List.range vals.length)

/-- Ascending Nat comparison, the comparator (a, b) => a - b. -/
def natLe (a b : Nat) : Bool :=
  decide (a ≤ b)

/-- The index selection of rollTerm: keep reassigns the index list (kh takes
the top n ranked, kl takes the bottom n ranked re-sorted ascending), then
drop filters out the top (dh) or bottom (dl) n ranked from the current index
list. Slices mirror JS slice, including slice(-0) being the whole array. -/
def selectUsed (rank indices0 : List Nat)
    (keep : Option (KeepKind × Nat)) (dropSel : Option (DropKind × Nat)) : List Nat :=
  let indices1 :=
    match keep with
    | some (KeepKind.kh, n) => rank.take n
    | some (KeepKind.kl, n) => stableSortBy natLe (jsSliceNeg rank n)
    | none => indices0
  match dropSel with
  | some (dk, n) =>
    let toDrop :=
      match dk with
      | DropKind.dh => rank.take n
      | DropKind.dl => jsSliceNeg rank n
    indices1.filter (fun i => decide (¬ i ∈ toDrop))
  | none => indices1

/-- The result record of rollTerm. -/
structure TermResult where
  rolls : List DieRoll
  used : List Nat
  subtotal : Nat
deriving DecidableEq, Repr

/-- rollTerm from the source, consuming one random outcome per die from the
stream σ starting at position k; returns the result record and the next
stream position. -/
def rollTerm (σ : Nat → Nat × Nat) (k : Nat) (t : DiceTerm) : TermResult × Nat :=
  let rolls := (List.range t.count).map (fun i => DieRoll.mk (rollOnce (σ (k + i)) t.sides))
  let vals := valsOf rolls
  let used := selectUsed (rankDesc vals) (List.range t.count) t.keep t.drop
  (⟨rolls, used, (used.map (valAt vals)).sum⟩, k + t.count)

/-- The adv(a, b) / dis(a, b) detail string of applyAdvantage, as data. -/
structure AdvDetail where
  isAdv : Bool
  a : Nat
  b : Nat
deriving DecidableEq, Repr

/-- applyAdvantage from the source: inert unless sides is 20 and a flag is
set; otherwise two fresh d20 draws, max under advantage, min under
disadvantage. Returns (value, detail) and the next stream position. -/
def applyAdvantage (σ : Nat → Nat × Nat) (k : Nat) (base sides : Nat) (adv dis : Bool) :
    (Nat × Option AdvDetail) × Nat :=
  if sides ≠ 20 ∨ (adv = false ∧ dis = false) then ((base, none), k)
  else
    let a := rollOnce (σ k) 20
    let b := rollOnce (σ (k + 1)) 20
    if adv then ((max a b, some ⟨true, a, b⟩), k + 2)
    else ((min a b, some ⟨false, a, b⟩), k + 2)

/-- One entry of the details array built by the roll_dice handler. -/
inductive Detail
  | modifier (value : Int)
  | d20 (base : Nat) (advOrDis : Option AdvDetail) (final : Nat)
  | dice (sides count : Nat) (keep : Option (KeepKind × Nat))
      (dropSel : Option (DropKind × Nat)) (rolls : List Nat)
      (usedIndices : List Nat) (subtotal : Nat)
deriving DecidableEq, Repr

/-- The per-term loop of the roll_dice handler: modifiers add their value, a
1d20 term with no selector under a flag goes through the base-then-
applyAdvantage path, and every other dice term goes through rollTerm.
Returns the total and the details in source order. -/
def resolveGo (σ : Nat → Nat × Nat) (adv dis : Bool) : List Term → Nat → Int × List Detail
  | [], _ => (0, [])
  | Term.modifier m :: rest, k =>
    let out := resolveGo σ adv dis rest k
    (m + out.1, Detail.modifier m :: out.2)
  | Term.dice t :: rest, k =>
    if t.count = 1 ∧ t.sides = 20 ∧ (adv || dis) = true ∧ t.keep = none ∧ t.drop = none then
      let base := rollOnce (σ k) 20
      let ad := applyAdvantage σ (k + 1) base 20 adv dis
      let out := resolveGo σ adv dis rest ad.2
      ((ad.1.1 : Int) + out.1, Detail.d20 base ad.1.2 ad.1.1 :: out.2)
    else
      let r := rollTerm σ k t
      let out := resolveGo σ adv dis rest r.2
      ((r.1.subtotal : Int) + out.1,
        Detail.dice t.sides t.count t.keep t.drop (valsOf r.1.rolls) r.1.used r.1.subtotal
          :: out.2)

/-- Resolve a parsed expression from stream position 0. -/
def resolve (σ : Nat → Nat × Nat) (e : ParsedExpression) : Int × List Detail :=
  resolveGo σ e.advantage e.disadvantage e.terms 0

/-- The whole roll_dice tool behaviour: parse, then resolve. -/
def rollDice (σ : Nat → Nat × Nat) (s : String) : Except ParseError (Int × List Detail) :=
  match parseExpr s with
  | Except.error e => Except.error e
  | Except.ok e => Except.ok (resolve σ e)

/-- The eligibility condition of the advantage/disadvantage special case in
the handler. -/
def isSpecialD20 (t : DiceTerm) (adv dis : Bool) : Prop :=
  t.count = 1 ∧ t.sides = 20 ∧ (adv || dis) = true ∧ t.keep = none ∧ t.drop = none

instance (t : DiceTerm) (adv dis : Bool) : Decidable (isSpecialD20 t adv dis) := by
  unfold isSpecialD20
  infer_instance

/-- The numeric contribution a detail record makes to the total. -/
def contribution : Detail → Int
  | Detail.modifier v => v
  | Detail.d20 _ _ final => final
  | Detail.dice _ _ _ _ _ _ subtotal => subtotal

/-- Correspondence between a source term and the detail recorded for it. -/
def matchesTerm : Term → Detail → Prop
  | Term.modifier m, Detail.modifier v => v = m
  | Term.dice t, Detail.d20 _ _ _ => t.count = 1 ∧ t.sides = 20
  | Term.dice t, Detail.dice s c kp dp _ _ _ =>
      s = t.sides ∧ c = t.count ∧ kp = t.keep ∧ dp = t.drop
  | _, _ => False

/-- A dice detail's subtotal is the sum of its recorded roll values at its
recorded used indices. -/
def diceSubOk : Detail → Prop
  | Detail.dice _ _ _ _ rolls used sub => (sub : Int) = ((used.map (fun i => rolls.getD i 0)).sum : Nat)
  | _ => True

/-- A concrete random stream used to instantiate theorems on closed inputs:
position i yields the rational (i mod 4) / 5, a value in [0, 1). -/
def sig0 : Nat → Nat × Nat := fun i => (i % 4, 5)

/-- Concrete input strings used by closed instances of the theorems. -/
def str1d0 : String := "1d0"

def str4d6kh0 : String := "4d6kh0"

def str4d6kh2 : String := "4d6kh2"

def str0d6 : String := "0d6"

def strAdvOnly : String := "adv"

def str1d : String := "1d"

def str1d6adv : String := "1d6 adv"

def str1d20adv : String := "1d20+5 adv"

def strSum : String := "2d6+1d4+3"

/-- The value sequence drawn by rollTerm for a term (rolls.map(x => x.value)). -/
def rolledVals (σ : Nat → Nat × Nat) (k : Nat) (t : DiceTerm) : List Nat :=
  valsOf ((rollTerm σ k t).1).rolls

/-- The used indices recorded by rollTerm for a term. -/
def usedOf (σ : Nat → Nat × Nat) (k : Nat) (t : DiceTerm) : List Nat :=
  ((rollTerm σ k t).1).used

/-- The ranking rollTerm builds over the drawn values of a term. -/
def rankedOf (σ : Nat → Nat × Nat) (k : Nat) (t : DiceTerm) : List Nat :=
  rankDesc (rolledVals σ k t)

/-- The term parsed from 4d6kh3. -/
def tKh3 : DiceTerm := ⟨4, 6, some (KeepKind.kh, 3), none⟩

/-- A keep-highest term whose n exceeds its count. -/
def tKh9 : DiceTerm := ⟨5, 6, some (KeepKind.kh, 9), none⟩

/-- A drop-highest term whose n exceeds its count. -/
def tDh7 : DiceTerm := ⟨2, 6, none, some (DropKind.dh, 7)⟩

/-- The term parsed from 1d20. -/
def t1d20 : DiceTerm := ⟨1, 20, none, none⟩

/-- The term parsed from 1d6. -/
def t1d6 : DiceTerm := ⟨1, 6, none, none⟩

/-- The expression parsed from 2d6+1d4+3. -/
def exprSum : ParsedExpression :=
  ⟨[Term.dice ⟨2, 6, none, none⟩, Term.dice ⟨1, 4, none, none⟩, Term.modifier 3],
    false, false⟩

deriving instance DecidableEq for Except

/-- The signed run +4d6kh2 as characters. -/
def part4d6kh2 : List Char := ['+', '4', 'd', '6', 'k', 'h', '2']

/-- A token that sets the advantage or the disadvantage flag. -/
def flagTok (t : List Char) : Bool := isAdvTok t || isDisTok t

/- ------------------------------------------------------------------ -/
/- Theorems.                                                           -/
/- ------------------------------------------------------------------ -/

theorem insertR_perm {α : Type} (le : α → α → Bool) (a : α) (l : List α) :
    List.Perm (insertR le a l) (a :: l) := by
  induction l with
  | nil => simp [insertR]
  | cons b l ih =>
    simp only [insertR]
    by_cases h : le a b = true
    · simp [h]
    · simp only [h, if_neg]
      exact List.Perm.trans (List.Perm.cons b ih) (List.Perm.swap a b l)

theorem stableSortBy_perm {α : Type} (le : α → α → Bool) (l : List α) :
    List.Perm (stableSortBy le l) l := by
  induction l with
  | nil => simp [stableSortBy]
  | cons a l ih =>
    simp only [stableSortBy]
    exact List.Perm.trans (insertR_perm le a (stableSortBy le l)) (List.Perm.cons a ih)

theorem mem_insertR {α : Type} {le : α → α → Bool} {a x : α} {l : List α} :
    x ∈ insertR le a l ↔ x = a ∨ x ∈ l := by
  rw [(insertR_perm le a l).mem_iff]
  simp

theorem mem_stableSortBy {α : Type} {le : α → α → Bool} {x : α} {l : List α} :
    x ∈ stableSortBy le l ↔ x ∈ l :=
  (stableSortBy_perm le l).mem_iff

theorem lexRel_le {α : Type} {le : α → α → Bool} {R : α → α → Prop} {a b : α}
    (h : lexRel le R a b) : le a b = true := by
  rcases h with ⟨h, -⟩ | ⟨h, -, -⟩ <;> exact h

theorem insertR_pairwise_lexRel {α : Type} (le : α → α → Bool) (R : α → α → Prop)
    (htr : ∀ a b c, le a b = true → le b c = true → le a c = true)
    (hto : ∀ a b, le a b = true ∨ le b a = true)
    (a : α) (l : List α)
    (hl : l.Pairwise (lexRel le R)) (ha : ∀ b ∈ l, R a b) :
    (insertR le a l).Pairwise (lexRel le R) := by
  induction l with
  | nil => simp [insertR, List.Pairwise.nil]
  | cons b l ih =>
    rcases List.pairwise_cons.mp hl with ⟨hb, hl'⟩
    simp only [insertR]
    by_cases h : le a b = true
    · simp only [h, if_pos]
      refine List.pairwise_cons.mpr ⟨?_, hl⟩
      intro x hx
      have hax : le a x = true := by
        rcases List.mem_cons.mp hx with rfl | hx'
        · exact h
        · exact htr a b x h (lexRel_le (hb x hx'))
      by_cases hxa : le x a = true
      · exact Or.inr ⟨hax, hxa, ha x hx⟩
      · exact Or.inl ⟨hax, hxa⟩
    · simp only [h, if_neg, Bool.false_eq_true, not_false_iff]
      refine List.pairwise_cons.mpr
        ⟨?_, ih hl' (fun x hx => ha x (List.mem_cons_of_mem b hx))⟩
      intro x hx
      rcases mem_insertR.mp hx with rfl | hx'
      · have hba : le b x = true := (hto x b).resolve_left h
        exact Or.inl ⟨hba, h⟩
      · exact hb x hx'

theorem stableSortBy_pairwise_lexRel {α : Type} (le : α → α → Bool) (R : α → α → Prop)
    (htr : ∀ a b c, le a b = true → le b c = true → le a c = true)
    (hto : ∀ a b, le a b = true ∨ le b a = true)
    (l : List α) (hl : l.Pairwise R) :
    (stableSortBy le l).Pairwise (lexRel le R) := by
  induction l with
  | nil => simp [stableSortBy, List.Pairwise.nil]
  | cons a l ih =>
    rcases List.pairwise_cons.mp hl with ⟨ha, hl'⟩
    simp only [stableSortBy]
    refine insertR_pairwise_lexRel le R htr hto a _ (ih hl') ?_
    intro b hb
    exact ha b (mem_stableSortBy.mp hb)

theorem pairwise_true {α : Type} (l : List α) : l.Pairwise (fun _ _ => True) := by
  induction l with
  | nil => exact List.Pairwise.nil
  | cons a l ih => exact List.pairwise_cons.mpr ⟨fun _ _ => trivial, ih⟩

theorem stableSortBy_pairwise_le {α : Type} (le : α → α → Bool)
    (htr : ∀ a b c, le a b = true → le b c = true → le a c = true)
    (hto : ∀ a b, le a b = true ∨ le b a = true)
    (l : List α) :
    (stableSortBy le l).Pairwise (fun a b => le a b = true) := by
  refine List.Pairwise.imp ?_
    (stableSortBy_pairwise_lexRel le (fun _ _ => True) htr hto l (pairwise_true l))
  intro a b h
  exact lexRel_le h

theorem cmpDesc_trans (vals : List Nat) :
    ∀ a b c, cmpDesc vals a b = true → cmpDesc vals b c = true → cmpDesc vals a c = true := by
  intro a b c hab hbc
  simp only [cmpDesc, decide_eq_true_eq] at hab hbc ⊢
  omega

theorem cmpDesc_total (vals : List Nat) :
    ∀ a b, cmpDesc vals a b = true ∨ cmpDesc vals b a = true := by
  intro a b
  simp only [cmpDesc, decide_eq_true_eq]
  omega

theorem natLe_trans : ∀ a b c : Nat, natLe a b = true → natLe b c = true → natLe a c = true := by
  intro a b c hab hbc
  simp only [natLe, decide_eq_true_eq] at hab hbc ⊢
  omega

theorem natLe_total : ∀ a b : Nat, natLe a b = true ∨ natLe b a = true := by
  intro a b
  simp only [natLe, decide_eq_true_eq]
  omega

theorem rankDesc_perm (vals : List Nat) :
    List.Perm (rankDesc vals) (List.range vals.length) :=
  stableSortBy_perm _ _

theorem rankDesc_length (vals : List Nat) : (rankDesc vals).length = vals.length := by
  have := (rankDesc_perm vals).length_eq
  simpa using this

theorem rankDesc_pairwise (vals : List Nat) :
    (rankDesc vals).Pairwise
      (fun i j => valAt vals j < valAt vals i ∨ (valAt vals i = valAt vals j ∧ i < j)) := by
  refine List.Pairwise.imp ?_
    (stableSortBy_pairwise_lexRel (cmpDesc vals) (· < ·)
      (cmpDesc_trans vals) (cmpDesc_total vals) (List.range vals.length)
      (List.sorted_lt_range _))
  intro a b h
  rcases h with ⟨h1, h2⟩ | ⟨h1, h2, h3⟩
  · simp only [cmpDesc, decide_eq_true_eq] at h1 h2
    omega
  · simp only [cmpDesc, decide_eq_true_eq] at h1 h2
    omega

theorem rollTerm_rolls_length (σ : Nat → Nat × Nat) (k : Nat) (t : DiceTerm) :
    ((rollTerm σ k t).1).rolls.length = t.count := by
  simp [rollTerm]

theorem rolledVals_length (σ : Nat → Nat × Nat) (k : Nat) (t : DiceTerm) :
    (rolledVals σ k t).length = t.count := by
  simp [rolledVals, valsOf, rollTerm_rolls_length]

theorem rankedOf_length (σ : Nat → Nat × Nat) (k : Nat) (t : DiceTerm) :
    (rankedOf σ k t).length = t.count := by
  rw [rankedOf, rankDesc_length, rolledVals_length]

theorem rankedOf_perm_range (σ : Nat → Nat × Nat) (k : Nat) (t : DiceTerm) :
    List.Perm (rankedOf σ k t) (List.range t.count) := by
  have h := rankDesc_perm (rolledVals σ k t)
  rw [rolledVals_length] at h
  exact h

theorem usedOf_eq_selectUsed (σ : Nat → Nat × Nat) (k : Nat) (t : DiceTerm) :
    usedOf σ k t = selectUsed (rankedOf σ k t) (List.range t.count) t.keep t.drop := rfl

theorem jsSliceNeg_of_pos {α : Type} (l : List α) {n : Nat} (hn : 1 ≤ n) :
    jsSliceNeg l n = l.drop (l.length - n) := by
  unfold jsSliceNeg
  have : n ≠ 0 := by omega
  simp [this]

/-- Claim C1: for every resolved general dice term, the recorded used indices
are determined by the selector: keep(kh, n) takes the top n ranked indices in
ranked order (not restored to draw order); keep(kl, n) takes the bottom n
ranked indices re-sorted into ascending draw order; drop(dh, n) and
drop(dl, n) keep all indices except the top (resp. bottom) n ranked, in
ascending draw order; no selector keeps all indices in draw order. -/
theorem claim1 (σ : Nat → Nat × Nat) (k : Nat) (t : DiceTerm) :
    (∀ n, t.keep = some (KeepKind.kh, n) → t.drop = none →
      usedOf σ k t = (rankedOf σ k t).take n) ∧
    (∀ n, t.keep = some (KeepKind.kl, n) → t.drop = none → 1 ≤ n →
      (usedOf σ k t).Pairwise (· ≤ ·) ∧
      List.Perm (usedOf σ k t) ((rankedOf σ k t).drop ((rankedOf σ k t).length - n))) ∧
    (∀ n, t.keep = none → t.drop = some (DropKind.dh, n) →
      usedOf σ k t
        = (List.range t.count).filter (fun i => decide (¬ i ∈ (rankedOf σ k t).take n))) ∧
    (∀ n, t.keep = none → t.drop = some (DropKind.dl, n) → 1 ≤ n →
      usedOf σ k t
        = (List.range t.count).filter
            (fun i => decide (¬ i ∈ (rankedOf σ k t).drop ((rankedOf σ k t).length - n)))) ∧
    (t.keep = none → t.drop = none → usedOf σ k t = List.range t.count) := by
  refine ⟨?_, ?_, ?_, ?_, ?_⟩
  · intro n hk hd
    rw [usedOf_eq_selectUsed, hk, hd]
    rfl
  · intro n hk hd hn
    rw [usedOf_eq_selectUsed, hk, hd]
    constructor
    · refine List.Pairwise.imp ?_ (stableSortBy_pairwise_le natLe natLe_trans natLe_total _)
      intro a b h
      simpa [natLe] using h
    · simp only [selectUsed]
      rw [jsSliceNeg_of_pos _ hn]
      exact stableSortBy_perm _ _
  · intro n hk hd
    rw [usedOf_eq_selectUsed, hk, hd]
    rfl
  · intro n hk hd hn
    rw [usedOf_eq_selectUsed, hk, hd]
    simp only [selectUsed]
    rw [jsSliceNeg_of_pos _ hn]
  · intro hk hd
    rw [usedOf_eq_selectUsed, hk, hd]
    rfl

theorem claim1_witness :
    usedOf sig0 0 tKh3 = [3, 2, 1] ∧
    usedOf sig0 0 tKh3 = (rankedOf sig0 0 tKh3).take 3 :=
  ⟨by decide, (claim1 sig0 0 tKh3).1 3 rfl rfl⟩

/-- Claim C2: the ranking used for keep and drop selection orders indices by
die value descending, and indices with equal values appear in ascending draw
position (stable sort, ties favour the earlier draw); consequently for
4d6kh3 exactly 4 dice are drawn and the 3 used indices are the top 3 of this
ranking. -/
theorem claim2 (vals : List Nat) :
    List.Perm (rankDesc vals) (List.range vals.length) ∧
    (rankDesc vals).Pairwise
      (fun i j => valAt vals j < valAt vals i ∨ (valAt vals i = valAt vals j ∧ i < j)) ∧
    (∀ σ k, ((rollTerm σ k tKh3).1).rolls.length = 4 ∧
      (usedOf σ k tKh3).length = 3 ∧
      usedOf σ k tKh3 = (rankedOf σ k tKh3).take 3) := by
  refine ⟨rankDesc_perm vals, rankDesc_pairwise vals, ?_⟩
  intro σ k
  refine ⟨rollTerm_rolls_length σ k tKh3, ?_, ?_⟩
  · rw [usedOf_eq_selectUsed]
    show ((rankedOf σ k tKh3).take 3).length = 3
    rw [List.length_take, rankedOf_length]
    rfl
  · rw [usedOf_eq_selectUsed]
    rfl

theorem mem_jsSliceNeg {α : Type} {l : List α} {n : Nat} {x : α}
    (h : x ∈ jsSliceNeg l n) : x ∈ l := by
  unfold jsSliceNeg at h
  by_cases hn : n = 0
  · simpa [hn] using h
  · simp only [hn, if_neg, not_false_iff] at h
    exact (List.drop_sublist _ _).mem h

theorem selectUsed_mem {rank indices0 : List Nat}
    {kp : Option (KeepKind × Nat)} {dp : Option (DropKind × Nat)} {i : Nat}
    (h : i ∈ selectUsed rank indices0 kp dp) : i ∈ rank ∨ i ∈ indices0 := by
  unfold selectUsed at h
  rcases kp with _ | ⟨kk, n⟩ <;> rcases dp with _ | ⟨dk, m⟩
  · exact Or.inr h
  · exact Or.inr (List.mem_of_mem_filter h)
  · rcases kk with _ | _
    · exact Or.inl ((List.take_sublist _ _).mem h)
    · exact Or.inl (mem_jsSliceNeg (mem_stableSortBy.mp h))
  · rcases kk with _ | _
    · exact Or.inl ((List.take_sublist _ _).mem (List.mem_of_mem_filter h))
    · exact Or.inl (mem_jsSliceNeg (mem_stableSortBy.mp (List.mem_of_mem_filter h)))

/-- Claim C5: resolution of a dice term never fails: rollTerm always draws
exactly count dice, every recorded used index is in range, and when a
selector's n reaches or exceeds count the selection clamps — keep with
n >= count degenerates to using all dice, drop with n >= count degenerates to
using none with subtotal 0. -/
theorem claim5 (σ : Nat → Nat × Nat) (k : Nat) (t : DiceTerm) :
    ((rollTerm σ k t).1).rolls.length = t.count ∧
    (∀ i ∈ usedOf σ k t, i < t.count) ∧
    (∀ kk n, t.keep = some (kk, n) → t.drop = none → t.count ≤ n →
      List.Perm (usedOf σ k t) (List.range t.count)) ∧
    (∀ dk n, t.keep = none → t.drop = some (dk, n) → t.count ≤ n →
      usedOf σ k t = [] ∧ ((rollTerm σ k t).1).subtotal = 0) := by
  refine ⟨rollTerm_rolls_length σ k t, ?_, ?_, ?_⟩
  · intro i hi
    rw [usedOf_eq_selectUsed] at hi
    rcases selectUsed_mem hi with h | h
    · have := (rankedOf_perm_range σ k t).mem_iff.mp h
      exact List.mem_range.mp this
    · exact List.mem_range.mp h
  · intro kk n hk hd hn
    have hlen : (rankedOf σ k t).length = t.count := rankedOf_length σ k t
    rw [usedOf_eq_selectUsed, hk, hd]
    match kk with
    | KeepKind.kh =>
      show List.Perm ((rankedOf σ k t).take n) (List.range t.count)
      rw [List.take_of_length_le (by omega)]
      exact rankedOf_perm_range σ k t
    | KeepKind.kl =>
      show List.Perm (stableSortBy natLe (jsSliceNeg (rankedOf σ k t) n)) (List.range t.count)
      by_cases hn0 : n = 0
      · have hc : t.count = 0 := by omega
        have : rankedOf σ k t = [] := List.length_eq_zero.mp (by omega)
        rw [hn0, this]
        simp [jsSliceNeg, stableSortBy, hc]
      · rw [jsSliceNeg_of_pos _ (by omega)]
        have : (rankedOf σ k t).length - n = 0 := by omega
        rw [this, List.drop_zero]
        exact List.Perm.trans (stableSortBy_perm _ _) (rankedOf_perm_range σ k t)
  · intro dk n hk hd hn
    have hlen : (rankedOf σ k t).length = t.count := rankedOf_length σ k t
    have hdropAll : ∀ i ∈ List.range t.count,
        i ∈ (match dk with
          | DropKind.dh => (rankedOf σ k t).take n
          | DropKind.dl => jsSliceNeg (rankedOf σ k t) n) := by
      intro i hi
      have hmem : i ∈ rankedOf σ k t := (rankedOf_perm_range σ k t).mem_iff.mpr hi
      match dk with
      | DropKind.dh =>
        rw [List.take_of_length_le (by omega)]
        exact hmem
      | DropKind.dl =>
        by_cases hn0 : n = 0
        · simp [jsSliceNeg, hn0, hmem]
        · rw [jsSliceNeg_of_pos _ (by omega)]
          have : (rankedOf σ k t).length - n = 0 := by omega
          rw [this, List.drop_zero]
          exact hmem
    have husd : usedOf σ k t = [] := by
      rw [usedOf_eq_selectUsed, hk, hd]
      show ((List.range t.count).filter _) = []
      rw [List.filter_eq_nil_iff]
      intro a ha
      simp only [decide_eq_true_eq, Decidable.not_not]
      exact hdropAll a ha
    refine ⟨husd, ?_⟩
    have hsub : ((rollTerm σ k t).1).subtotal
        = ((usedOf σ k t).map (valAt (rolledVals σ k t))).sum := rfl
    rw [hsub, husd]
    rfl

theorem claim5_witness :
    (List.Perm (usedOf sig0 0 tKh9) (List.range 5) ∧ usedOf sig0 0 tKh9 = [3, 2, 1, 0, 4]) ∧
    (usedOf sig0 0 tDh7 = [] ∧ ((rollTerm sig0 0 tDh7).1).subtotal = 0) :=
  ⟨⟨(claim5 sig0 0 tKh9).2.2.1 KeepKind.kh 9 rfl rfl (by decide), by decide⟩,
    (claim5 sig0 0 tDh7).2.2.2 DropKind.dh 7 rfl rfl (by decide)⟩

/-- Claim C3: a dice term is resolved through the advantage/disadvantage
special case exactly when count = 1, sides = 20, it has no keep/drop and an
expression-level flag is set; then one base d20 is drawn and recorded but
excluded from the total, two further fresh d20 values a and b are drawn, and
the term contributes max(a, b) under advantage and min(a, b) under
disadvantage; any non-qualifying term (such as 1d6 adv) contributes through
the general rollTerm path. -/
theorem claim3 (σ : Nat → Nat × Nat) (adv dis : Bool) (t : DiceTerm) (rest : List Term) (k : Nat) :
    (isSpecialD20 t adv dis →
      (resolveGo σ adv dis (Term.dice t :: rest) k).2
        = Detail.d20 (rollOnce (σ k) 20)
            (some ⟨adv, rollOnce (σ (k + 1)) 20, rollOnce (σ (k + 2)) 20⟩)
            (if adv = true then max (rollOnce (σ (k + 1)) 20) (rollOnce (σ (k + 2)) 20)
             else min (rollOnce (σ (k + 1)) 20) (rollOnce (σ (k + 2)) 20))
          :: (resolveGo σ adv dis rest (k + 3)).2 ∧
      (resolveGo σ adv dis (Term.dice t :: rest) k).1
        = ((if adv = true then max (rollOnce (σ (k + 1)) 20) (rollOnce (σ (k + 2)) 20)
            else min (rollOnce (σ (k + 1)) 20) (rollOnce (σ (k + 2)) 20) : Nat) : Int)
          + (resolveGo σ adv dis rest (k + 3)).1) ∧
    (¬ isSpecialD20 t adv dis →
      (resolveGo σ adv dis (Term.dice t :: rest) k).2
        = Detail.dice t.sides t.count t.keep t.drop (rolledVals σ k t) (usedOf σ k t)
            ((rollTerm σ k t).1).subtotal :: (resolveGo σ adv dis rest (k + t.count)).2 ∧
      (resolveGo σ adv dis (Term.dice t :: rest) k).1
        = (((rollTerm σ k t).1).subtotal : Int)
          + (resolveGo σ adv dis rest (k + t.count)).1) := by
  constructor
  · intro h
    have hc : t.count = 1 ∧ t.sides = 20 ∧ (adv || dis) = true ∧ t.keep = none ∧ t.drop = none := h
    rw [resolveGo]
    rw [if_pos hc]
    have hAdv : applyAdvantage σ (k + 1) (rollOnce (σ k) 20) 20 adv dis
        = ((if adv = true
              then max (rollOnce (σ (k + 1)) 20) (rollOnce (σ (k + 2)) 20)
              else min (rollOnce (σ (k + 1)) 20) (rollOnce (σ (k + 2)) 20),
            some ⟨adv, rollOnce (σ (k + 1)) 20, rollOnce (σ (k + 2)) 20⟩), k + 3) := by
      rcases hc with ⟨-, -, h3, -, -⟩
      rw [applyAdvantage]
      rw [if_neg]
      · cases adv with
        | true => simp [Nat.add_assoc]
        | false => simp [Nat.add_assoc]
      · rcases Bool.or_eq_true_iff.mp h3 with ha | hd
        · simp [ha]
        · simp [hd]
    dsimp only
    rw [hAdv]
    exact ⟨rfl, rfl⟩
  · intro h
    have hc : ¬ (t.count = 1 ∧ t.sides = 20 ∧ (adv || dis) = true ∧ t.keep = none ∧ t.drop = none) := h
    rw [resolveGo]
    rw [if_neg hc]
    dsimp only
    exact ⟨rfl, rfl⟩

theorem claim3_witness :
    isSpecialD20 t1d20 true false ∧
    (resolveGo sig0 true false [Term.dice t1d20] 0).1
      = ((max (rollOnce (sig0 1) 20) (rollOnce (sig0 2) 20) : Nat) : Int)
        + (resolveGo sig0 true false [] 3).1 ∧
    ¬ isSpecialD20 t1d6 true false ∧
    (resolveGo sig0 true false [Term.dice t1d6] 0).1
      = (((rollTerm sig0 0 t1d6).1).subtotal : Int)
        + (resolveGo sig0 true false [] 1).1 ∧
    (resolveGo sig0 true false [Term.dice t1d6] 0).1 = 1 := by
  refine ⟨by decide, ?_, by decide, ?_, by decide⟩
  · have := ((claim3 sig0 true false t1d20 [] 0).1 (by decide)).2
    simpa using this
  · have := ((claim3 sig0 true false t1d6 [] 0).2 (by decide)).2
    simpa using this

theorem resolveGo_props (σ : Nat → Nat × Nat) (adv dis : Bool) :
    ∀ (ts : List Term) (k : Nat),
      (resolveGo σ adv dis ts k).1 = ((resolveGo σ adv dis ts k).2.map contribution).sum ∧
      List.Forall₂ matchesTerm ts (resolveGo σ adv dis ts k).2 ∧
      ∀ d ∈ (resolveGo σ adv dis ts k).2, diceSubOk d := by
  intro ts
  induction ts with
  | nil =>
    intro k
    refine ⟨rfl, List.Forall₂.nil, ?_⟩
    intro d hd
    simp [resolveGo] at hd
  | cons t rest ih =>
    intro k
    match t with
    | Term.modifier m =>
      obtain ⟨ih1, ih2, ih3⟩ := ih k
      rw [resolveGo]
      dsimp only
      refine ⟨?_, List.Forall₂.cons rfl ih2, ?_⟩
      · simp only [List.map_cons, List.sum_cons, contribution]
        rw [ih1]
      · intro d hd
        rcases List.mem_cons.mp hd with rfl | hd
        · trivial
        · exact ih3 d hd
    | Term.dice td =>
      by_cases hc : td.count = 1 ∧ td.sides = 20 ∧ (adv || dis) = true ∧
          td.keep = none ∧ td.drop = none
      · obtain ⟨ih1, ih2, ih3⟩ :=
          ih (applyAdvantage σ (k + 1) (rollOnce (σ k) 20) 20 adv dis).2
        rw [resolveGo]
        rw [if_pos hc]
        dsimp only
        refine ⟨?_, List.Forall₂.cons ⟨hc.1, hc.2.1⟩ ih2, ?_⟩
        · simp only [List.map_cons, List.sum_cons, contribution]
          rw [ih1]
        · intro d hd
          rcases List.mem_cons.mp hd with rfl | hd
          · trivial
          · exact ih3 d hd
      · obtain ⟨ih1, ih2, ih3⟩ := ih (rollTerm σ k td).2
        rw [resolveGo]
        rw [if_neg hc]
        dsimp only
        refine ⟨?_, List.Forall₂.cons ⟨rfl, rfl, rfl, rfl⟩ ih2, ?_⟩
        · simp only [List.map_cons, List.sum_cons, contribution]
          rw [ih1]
        · intro d hd
          rcases List.mem_cons.mp hd with rfl | hd
          · exact rfl
          · exact ih3 d hd

/-- Claim C4: for every notation that parses successfully, the total equals
the exact sum of the recorded per-term contributions in the detail list, the
details correspond to the source terms in left-to-right order, and every
dice detail's subtotal is the sum of its roll values at its used indices. -/
theorem claim4 (σ : Nat → Nat × Nat) (s : String) (e : ParsedExpression)
    (_h : parseExpr s = Except.ok e) :
    (resolve σ e).1 = ((resolve σ e).2.map contribution).sum ∧
    List.Forall₂ matchesTerm e.terms (resolve σ e).2 ∧
    ∀ d ∈ (resolve σ e).2, diceSubOk d :=
  resolveGo_props σ e.advantage e.disadvantage e.terms 0

theorem claim4_witness :
    parseExpr strSum = Except.ok exprSum ∧
    (resolve sig0 exprSum).1 = ((resolve sig0 exprSum).2.map contribution).sum ∧
    (resolve sig0 exprSum).1 = 8 :=
  ⟨by decide, (claim4 sig0 strSum exprSum (by decide)).1, by decide⟩

theorem normCount_pos (cd : List Char) : 1 ≤ normCount cd := by
  unfold normCount
  by_cases h : (if cd.isEmpty then 1 else digitsToNat cd) = 0
  · rw [if_pos h]
  · rw [if_neg h]
    omega

theorem partToTerm_dice_inv {p : List Char} {t : DiceTerm}
    (h : partToTerm p = Except.ok (Term.dice t)) :
    1 ≤ t.count ∧ (t.keep = none ∨ t.drop = none) := by
  unfold partToTerm at h
  cases hm : matchTermRe p with
  | none =>
    rw [hm] at h
    exact absurd h (by simp)
  | some m =>
    rw [hm] at h
    rcases m with ⟨neg, payload⟩
    cases payload with
    | mod md => simp at h
    | dice cd sd sel =>
      cases neg with
      | true => simp at h
      | false =>
        simp only [Bool.false_eq_true, if_false] at h
        cases sel with
        | none =>
          injection h with h
          injection h with h
          subst h
          exact ⟨normCount_pos cd, Or.inl rfl⟩
        | some kn =>
          rcases kn with ⟨k, nd⟩
          dsimp only at h
          by_cases hz : digitsToNat nd = 0
          · rw [if_pos hz] at h
            injection h with h
            injection h with h
            subst h
            exact ⟨normCount_pos cd, Or.inl rfl⟩
          · rw [if_neg hz] at h
            injection h with h
            injection h with h
            subst h
            cases k with
            | kh => exact ⟨normCount_pos cd, Or.inr rfl⟩
            | kl => exact ⟨normCount_pos cd, Or.inr rfl⟩
            | dh => exact ⟨normCount_pos cd, Or.inl rfl⟩
            | dl => exact ⟨normCount_pos cd, Or.inl rfl⟩

theorem parseParts_mem : ∀ {ps : List (List Char)} {ts : List Term},
    parseParts ps = Except.ok ts → ∀ tm ∈ ts, ∃ p ∈ ps, partToTerm p = Except.ok tm := by
  intro ps
  induction ps with
  | nil =>
    intro ts h tm htm
    unfold parseParts at h
    injection h with h
    subst h
    exact absurd htm (List.not_mem_nil tm)
  | cons p rest ih =>
    intro ts h tm htm
    unfold parseParts at h
    cases hp : partToTerm p with
    | error e =>
      rw [hp] at h
      exact absurd h (by simp)
    | ok t0 =>
      rw [hp] at h
      cases hr : parseParts rest with
      | error e =>
        rw [hr] at h
        exact absurd h (by simp)
      | ok ts0 =>
        rw [hr] at h
        injection h with h
        subst h
        rcases List.mem_cons.mp htm with rfl | htm2
        · exact ⟨p, List.mem_cons_self p rest, hp⟩
        · obtain ⟨q, hq, hqt⟩ := ih hr tm htm2
          exact ⟨q, List.mem_cons_of_mem p hq, hqt⟩

theorem parseExpr_ok_terms {s : String} {e : ParsedExpression}
    (h : parseExpr s = Except.ok e) :
    parseParts (partsOf s.data) = Except.ok e.terms := by
  unfold parseExpr parseExprCh at h
  cases hp : parseParts (partsOf s.data) with
  | error er =>
    rw [hp] at h
    exact absurd h (by simp)
  | ok ts =>
    rw [hp] at h
    dsimp only at h
    by_cases hf : ((flagsOf s.data).1 && (flagsOf s.data).2) = true
    · rw [if_pos hf] at h
      exact absurd h (by simp)
    · rw [if_neg hf] at h
      injection h with h
      rw [← h]

/-- Claim C6 (counterexample): the input 1d0 parses successfully into a dice
term with sides = 0, so the invariant sides >= 1 claimed for parsed terms
does not hold. -/
theorem claim6_cex :
    parseExpr str1d0 = Except.ok ⟨[Term.dice ⟨1, 0, none, none⟩], false, false⟩ := by
  decide

/-- Claim C6 (amended): for every notation that parses successfully, every
dice term of the result satisfies count >= 1 and has at most one of
keep/drop; the claimed lower bound sides >= 1 is dropped, since digits
permit a parsed sides of 0 (see the counterexample 1d0). -/
theorem claim6_amended (s : String) (e : ParsedExpression)
    (h : parseExpr s = Except.ok e) (t : DiceTerm) (ht : Term.dice t ∈ e.terms) :
    1 ≤ t.count ∧ (t.keep = none ∨ t.drop = none) := by
  obtain ⟨p, _hp, hpt⟩ := parseParts_mem (parseExpr_ok_terms h) (Term.dice t) ht
  exact partToTerm_dice_inv hpt

theorem claim6_witness :
    parseExpr str4d6kh2
      = Except.ok ⟨[Term.dice ⟨4, 6, some (KeepKind.kh, 2), none⟩], false, false⟩ ∧
    1 ≤ (4 : Nat) ∧
    ((⟨4, 6, some (KeepKind.kh, 2), none⟩ : DiceTerm).keep = none ∨
      (⟨4, 6, some (KeepKind.kh, 2), none⟩ : DiceTerm).drop = none) :=
  ⟨by decide, by decide,
    (claim6_amended str4d6kh2 ⟨[Term.dice ⟨4, 6, some (KeepKind.kh, 2), none⟩], false, false⟩
      (by decide) ⟨4, 6, some (KeepKind.kh, 2), none⟩ (by decide)).2⟩

/-- Claim C8 (counterexample): in 4d6kh0 the written selector count is 0, so
the truthiness test kd && n in the source skips the selector entirely and the
parsed term has neither keep nor drop, contradicting the claim that the
selector is recorded even when the written n is 0. -/
theorem claim8_cex :
    parseExpr str4d6kh0 = Except.ok ⟨[Term.dice ⟨4, 6, none, none⟩], false, false⟩ := by
  decide

/-- Claim C8 (amended): for a dice run with selector kh/kl/dh/dl and written
digits n, the parsed term is populated with the corresponding keep or drop
field when n >= 1; when the written n is 0 the selector is ignored and the
term carries neither keep nor drop. -/
theorem claim8_amended (p cd sd : List Char) (k : SelKind) (nd : List Char)
    (h : matchTermRe p = some ⟨false, MatchPayload.dice cd sd (some (k, nd))⟩) :
    (1 ≤ digitsToNat nd →
      partToTerm p
        = Except.ok (Term.dice
            (applySel ⟨normCount cd, digitsToNat sd, none, none⟩ k (digitsToNat nd)))) ∧
    (digitsToNat nd = 0 →
      partToTerm p = Except.ok (Term.dice ⟨normCount cd, digitsToNat sd, none, none⟩)) := by
  constructor
  · intro hn
    have hz : ¬ digitsToNat nd = 0 := by omega
    unfold partToTerm
    rw [h]
    dsimp only
    rw [if_neg hz]
    rfl
  · intro hn
    unfold partToTerm
    rw [h]
    dsimp only
    rw [if_pos hn]
    rfl

theorem claim8_witness :
    matchTermRe part4d6kh2
      = some ⟨false, MatchPayload.dice ['4'] ['6'] (some (SelKind.kh, ['2']))⟩ ∧
    (1 : Nat) ≤ digitsToNat ['2'] ∧
    partToTerm part4d6kh2 = Except.ok (Term.dice ⟨4, 6, some (KeepKind.kh, 2), none⟩) := by
  refine ⟨by decide, by decide, ?_⟩
  have := (claim8_amended part4d6kh2 ['4'] ['6'] SelKind.kh ['2'] (by decide)).1 (by decide)
  rw [this]
  decide

theorem stripFlagsRev_all {toks : List (List Char)}
    (h : ∀ t ∈ toks, flagTok t = true) : (stripFlagsRev toks).1 = [] := by
  induction toks with
  | nil => rfl
  | cons t rest ih =>
    have hrest : (stripFlagsRev rest).1 = [] :=
      ih (fun x hx => h x (List.mem_cons_of_mem t hx))
    by_cases ha : isAdvTok t = true
    · unfold stripFlagsRev
      rw [if_pos ha]
      exact hrest
    · have hd : isDisTok t = true := by
        have ht := h t (List.mem_cons_self t rest)
        unfold flagTok at ht
        rcases Bool.or_eq_true_iff.mp ht with h1 | h2
        · exact absurd h1 ha
        · exact h2
      unfold stripFlagsRev
      rw [if_neg ha, if_pos hd]
      exact hrest

theorem stripFlags_all {toks : List (List Char)}
    (h : ∀ t ∈ toks, flagTok t = true) : (stripFlags toks).1 = [] := by
  unfold stripFlags
  dsimp only
  rw [stripFlagsRev_all (fun t ht => h t (List.mem_reverse.mp ht))]
  rfl

theorem parseExprCh_emptyJoined {cs : List Char}
    (hflat : (stripFlags (tokensOf cs)).1.flatten = []) :
    parseExprCh cs = Except.error (ParseError.invalidPart ['+']) := by
  unfold parseExprCh partsOf
  rw [hflat]
  rfl

/-- Claim C9: a notation whose tokens are only advantage/disadvantage flag
words, or that is empty, would yield an expression with zero terms, and
parsing it fails with a syntax error (the single leftover run is the bare
sign +, which matches neither grammar alternative). -/
theorem claim9 (s : String)
    (h : trimChars s.data = [] ∨ ∀ t ∈ tokensOf s.data, flagTok t = true) :
    parseExpr s = Except.error (ParseError.invalidPart ['+']) := by
  have hflat : (stripFlags (tokensOf s.data)).1.flatten = [] := by
    rcases h with h | h
    · have ht : tokensOf s.data = [[]] := by
        unfold tokensOf
        rw [h]
        rfl
      rw [ht]
      rfl
    · rw [stripFlags_all h]
      rfl
  exact parseExprCh_emptyJoined hflat

theorem claim9_witness :
    (∀ t ∈ tokensOf strAdvOnly.data, flagTok t = true) ∧
    parseExpr strAdvOnly = Except.error (ParseError.invalidPart ['+']) :=
  ⟨by decide, claim9 strAdvOnly (Or.inr (by decide))⟩

/-- Claim C10: an explicit count of zero, as in 0d6, parses successfully and
the zero count is coerced to 1 by the count || 1 expression in the source, so
resolution draws exactly one die for the term. -/
theorem claim10 (σ : Nat → Nat × Nat) (k : Nat) :
    parseExpr str0d6 = Except.ok ⟨[Term.dice t1d6], false, false⟩ ∧
    ((rollTerm σ k t1d6).1).rolls.length = 1 :=
  ⟨by decide, rollTerm_rolls_length σ k t1d6⟩

theorem partToTerm_ok_of_mod {p : List Char} {neg : Bool} {md : List Char}
    (hm : matchTermRe p = some ⟨neg, MatchPayload.mod md⟩) :
    ∃ t, partToTerm p = Except.ok t := by
  unfold partToTerm
  rw [hm]
  exact ⟨_, rfl⟩

theorem partToTerm_ok_of_dice_nonneg {p cd sd : List Char} {sel : Option (SelKind × List Char)}
    (hm : matchTermRe p = some ⟨false, MatchPayload.dice cd sd sel⟩) :
    ∃ t, partToTerm p = Except.ok t := by
  unfold partToTerm
  rw [hm]
  dsimp only
  cases sel with
  | none => exact ⟨_, rfl⟩
  | some kn =>
    rcases kn with ⟨k, nd⟩
    dsimp only
    by_cases hz : digitsToNat nd = 0
    · refine ⟨Term.dice ⟨normCount cd, digitsToNat sd, none, none⟩, ?_⟩
      rw [if_pos hz]
      rfl
    · refine ⟨Term.dice
        (applySel ⟨normCount cd, digitsToNat sd, none, none⟩ k (digitsToNat nd)), ?_⟩
      rw [if_neg hz]
      rfl

theorem partToTerm_error_of_neg_dice {p cd sd : List Char} {sel : Option (SelKind × List Char)}
    (hm : matchTermRe p = some ⟨true, MatchPayload.dice cd sd sel⟩) :
    partToTerm p = Except.error (ParseError.negativePool p) := by
  unfold partToTerm
  rw [hm]
  rfl

theorem partToTerm_error_of_none {p : List Char} (hm : matchTermRe p = none) :
    partToTerm p = Except.error (ParseError.invalidPart p) := by
  unfold partToTerm
  rw [hm]

theorem partToTerm_error_iff {p : List Char} :
    (∃ e, partToTerm p = Except.error e) ↔
      (matchTermRe p = none ∨
        ∃ cd sd sel, matchTermRe p = some ⟨true, MatchPayload.dice cd sd sel⟩) := by
  cases hm : matchTermRe p with
  | none =>
    constructor
    · intro _
      exact Or.inl rfl
    · intro _
      exact ⟨ParseError.invalidPart p, partToTerm_error_of_none hm⟩
  | some m =>
    rcases m with ⟨neg, payload⟩
    cases payload with
    | mod md =>
      constructor
      · rintro ⟨e, he⟩
        obtain ⟨t, ht⟩ := partToTerm_ok_of_mod hm
        rw [ht] at he
        exact absurd he (by simp)
      · rintro (h1 | ⟨cd, sd, sel, h2⟩)
        · exact absurd h1 (by simp)
        · simp at h2
    | dice cd sd sel =>
      cases neg with
      | true =>
        constructor
        · intro _
          exact Or.inr ⟨cd, sd, sel, rfl⟩
        · intro _
          exact ⟨ParseError.negativePool p, partToTerm_error_of_neg_dice hm⟩
      | false =>
        constructor
        · rintro ⟨e, he⟩
          obtain ⟨t, ht⟩ := partToTerm_ok_of_dice_nonneg hm
          rw [ht] at he
          exact absurd he (by simp)
        · rintro (h1 | ⟨cd2, sd2, sel2, h2⟩)
          · exact absurd h1 (by simp)
          · simp at h2

theorem partToTerm_error_shape {p : List Char} {e : ParseError}
    (h : partToTerm p = Except.error e) :
    e = ParseError.invalidPart p ∨ e = ParseError.negativePool p := by
  cases hm : matchTermRe p with
  | none =>
    rw [partToTerm_error_of_none hm] at h
    injection h with h
    exact Or.inl h.symm
  | some m =>
    rcases m with ⟨neg, payload⟩
    cases payload with
    | mod md =>
      obtain ⟨t, ht⟩ := partToTerm_ok_of_mod hm
      rw [ht] at h
      exact absurd h (by simp)
    | dice cd sd sel =>
      cases neg with
      | true =>
        rw [partToTerm_error_of_neg_dice hm] at h
        injection h with h
        exact Or.inr h.symm
      | false =>
        obtain ⟨t, ht⟩ := partToTerm_ok_of_dice_nonneg hm
        rw [ht] at h
        exact absurd h (by simp)

theorem parseParts_error_iff : ∀ {ps : List (List Char)},
    (∃ e, parseParts ps = Except.error e) ↔
      ∃ p ∈ ps, ∃ e, partToTerm p = Except.error e := by
  intro ps
  induction ps with
  | nil =>
    constructor
    · rintro ⟨e, he⟩
      exact absurd he (by simp [parseParts])
    · rintro ⟨p, hp, -⟩
      exact absurd hp (List.not_mem_nil p)
  | cons p rest ih =>
    constructor
    · rintro ⟨e, he⟩
      unfold parseParts at he
      cases hp : partToTerm p with
      | error e0 => exact ⟨p, List.mem_cons_self p rest, e0, hp⟩
      | ok t0 =>
        rw [hp] at he
        cases hr : parseParts rest with
        | error e1 =>
          obtain ⟨q, hq, he1⟩ := ih.mp ⟨e1, hr⟩
          exact ⟨q, List.mem_cons_of_mem p hq, he1⟩
        | ok ts =>
          rw [hr] at he
          exact absurd he (by simp)
    · rintro ⟨q, hq, e0, he0⟩
      rcases List.mem_cons.mp hq with rfl | hq2
      · refine ⟨e0, ?_⟩
        unfold parseParts
        rw [he0]
      · obtain ⟨e1, he1⟩ := ih.mpr ⟨q, hq2, e0, he0⟩
        unfold parseParts
        cases hp : partToTerm p with
        | error e2 => exact ⟨e2, rfl⟩
        | ok t0 =>
          rw [he1]
          exact ⟨e1, rfl⟩

theorem parseParts_error_mem : ∀ {ps : List (List Char)} {e : ParseError},
    parseParts ps = Except.error e → ∃ p ∈ ps, partToTerm p = Except.error e := by
  intro ps
  induction ps with
  | nil =>
    intro e h
    exact absurd h (by simp [parseParts])
  | cons p rest ih =>
    intro e h
    unfold parseParts at h
    cases hp : partToTerm p with
    | error e0 =>
      rw [hp] at h
      injection h with h
      subst h
      exact ⟨p, List.mem_cons_self p rest, hp⟩
    | ok t0 =>
      rw [hp] at h
      cases hr : parseParts rest with
      | error e1 =>
        rw [hr] at h
        injection h with h
        subst h
        obtain ⟨q, hq, hqe⟩ := ih hr
        exact ⟨q, List.mem_cons_of_mem p hq, hqe⟩
      | ok ts =>
        rw [hr] at h
        exact absurd h (by simp)

theorem parseExprCh_error_iff {cs : List Char} :
    (∃ e, parseExprCh cs = Except.error e) ↔
      ((∃ e, parseParts (partsOf cs) = Except.error e) ∨
        ((flagsOf cs).1 = true ∧ (flagsOf cs).2 = true)) := by
  unfold parseExprCh
  cases hp : parseParts (partsOf cs) with
  | error e =>
    constructor
    · intro _
      exact Or.inl ⟨e, rfl⟩
    · intro _
      exact ⟨e, rfl⟩
  | ok ts =>
    dsimp only
    by_cases hf : ((flagsOf cs).1 && (flagsOf cs).2) = true
    · constructor
      · intro _
        exact Or.inr (Bool.and_eq_true_iff.mp hf)
      · intro _
        refine ⟨ParseError.bothAdvDis, ?_⟩
        rw [if_pos hf]
    · constructor
      · rintro ⟨e, he⟩
        rw [if_neg hf] at he
        exact absurd he (by simp)
      · rintro (⟨e, he⟩ | hff)
        · exact absurd he (by simp)
        · exact absurd (Bool.and_eq_true_iff.mpr hff) hf

theorem parseExprCh_error_shape {cs : List Char} {e : ParseError}
    (h : parseExprCh cs = Except.error e) :
    (∃ p ∈ partsOf cs, e = ParseError.invalidPart p) ∨
    (∃ p ∈ partsOf cs, e = ParseError.negativePool p) ∨
    e = ParseError.bothAdvDis := by
  unfold parseExprCh at h
  cases hp : parseParts (partsOf cs) with
  | error e0 =>
    rw [hp] at h
    dsimp only at h
    injection h with h
    subst h
    obtain ⟨p, hpmem, hpe⟩ := parseParts_error_mem hp
    rcases partToTerm_error_shape hpe with h1 | h2
    · exact Or.inl ⟨p, hpmem, h1⟩
    · exact Or.inr (Or.inl ⟨p, hpmem, h2⟩)
  | ok ts =>
    rw [hp] at h
    dsimp only at h
    by_cases hf : ((flagsOf cs).1 && (flagsOf cs).2) = true
    · rw [if_pos hf] at h
      injection h with h
      exact Or.inr (Or.inr h.symm)
    · rw [if_neg hf] at h
      exact absurd h (by simp)

/-- Claim C7: parsing fails exactly when some signed run matches neither the
dice-term form nor the flat-modifier form, or some run matches the dice form
with a leading minus sign (a negative dice pool, a distinct error), or both
advantage and disadvantage flags were seen; every error is one of these
three syntax-error kinds, and the two run-level kinds carry the offending
run. -/
theorem claim7 (s : String) :
    ((∃ e, parseExpr s = Except.error e) ↔
      ((∃ p ∈ partsOf s.data, matchTermRe p = none) ∨
        (∃ p ∈ partsOf s.data, ∃ cd sd sel,
          matchTermRe p = some ⟨true, MatchPayload.dice cd sd sel⟩) ∨
        ((flagsOf s.data).1 = true ∧ (flagsOf s.data).2 = true))) ∧
    (∀ er, parseExpr s = Except.error er →
      (∃ p ∈ partsOf s.data, er = ParseError.invalidPart p) ∨
      (∃ p ∈ partsOf s.data, er = ParseError.negativePool p) ∨
      er = ParseError.bothAdvDis) := by
  constructor
  · unfold parseExpr
    rw [parseExprCh_error_iff, parseParts_error_iff]
    constructor
    · rintro (⟨p, hp, e, he⟩ | hf)
      · rcases partToTerm_error_iff.mp ⟨e, he⟩ with h1 | h2
        · exact Or.inl ⟨p, hp, h1⟩
        · exact Or.inr (Or.inl ⟨p, hp, h2⟩)
      · exact Or.inr (Or.inr hf)
    · rintro (⟨p, hp, h1⟩ | ⟨p, hp, h2⟩ | hf)
      · exact Or.inl ⟨p, hp, partToTerm_error_iff.mpr (Or.inl h1)⟩
      · exact Or.inl ⟨p, hp, partToTerm_error_iff.mpr (Or.inr h2)⟩
      · exact Or.inr hf
  · intro er h
    exact parseExprCh_error_shape h

theorem claim7_witness :
    parseExpr str1d = Except.error (ParseError.invalidPart ['+', '1', 'd']) ∧
    ((∃ p ∈ partsOf str1d.data,
        ParseError.invalidPart ['+', '1', 'd'] = ParseError.invalidPart p) ∨
      (∃ p ∈ partsOf str1d.data,
        ParseError.invalidPart ['+', '1', 'd'] = ParseError.negativePool p) ∨
      ParseError.invalidPart ['+', '1', 'd'] = ParseError.bothAdvDis) :=
  ⟨by decide, (claim7 str1d).2 (ParseError.invalidPart ['+', '1', 'd']) (by decide)⟩
